import Mathlib

/-!
Verification development for the math-optimizer repository.

The repository rewrites arithmetic sub-expressions embedded in assignment
statements of Python source text.  We shallowly embed the code:

* `Expr`, `Stmt`, `Tgt` model the fragment of the Python abstract syntax
  tree that the program traverses (names, numeric and string constants,
  binary operations, calls, comparisons; assignment and expression
  statements).
* `Engine` models the two external collaborators as an abstract interface:
  the syntax bridge's `ast.unparse` (`unparse`) and re-parse of the symbolic
  engine's textual output (`reify`, modelling
  `ast.parse(str(e)).body[0].value`), and SymPy's `sympify` (fallible:
  `none` models a raised `SympifyError`), `simplify`, `factor`, `expand`,
  `diff` and `integrate`.
* `MathOptimizer.optimize_node` / `MathOptimizer.optimize_tree` embed
  `src/optimizer.py`; exceptions raised by `sympify` are modelled by the
  `Option` monad (a `none` aborts the whole traversal, as an uncaught
  Python exception does).
* `MathExtractor` embeds `src/parser.py`.
* `CalcTransformer.visit_Assign` embeds the calculus transform of
  `src/main.py`, and `parse_line_set` embeds the line-filter parser of
  `src/main.py` at the character level.
-/

/-- Binary operators of the arithmetic fragment (`ast.Add`, `ast.Sub`,
`ast.Mult`, `ast.Div`, `ast.Pow`). -/
inductive Op : Type
  | add
  | sub
  | mul
  | div
  | pow
deriving DecidableEq, Repr

mutual

/-- Expression nodes of the embedded Python AST fragment.  `call` keeps the
callee name and the argument list, `cmp` models a one-comparator
`ast.Compare`; both matter only as non-`binop` containers that the
traversals walk through. -/
inductive Expr : Type
  | name (s : String)
  | num (n : Int)
  | str (s : String)
  | binop (l : Expr) (op : Op) (r : Expr)
  | call (f : String) (args : ExprList)
  | cmp (l : Expr) (r : Expr)
deriving DecidableEq, Repr

/-- Argument lists of `Expr.call` (a mutual inductive so that all
traversals are plain structural recursions). -/
inductive ExprList : Type
  | nil
  | cons (e : Expr) (es : ExprList)
deriving DecidableEq, Repr

end

/-- Assignment targets: a plain name (`ast.Name`), a tuple target or an
attribute target (the non-name shapes the calculus transform must skip). -/
inductive Tgt : Type
  | name (s : String)
  | tup (names : List String)
  | attr (base : String) (field : String)
deriving DecidableEq, Repr

/-- Statements: `ast.Assign` (target list, value, source line number) and a
bare expression statement. -/
inductive Stmt : Type
  | assign (targets : List Tgt) (value : Expr) (lineno : Int)
  | exprStmt (value : Expr)
deriving DecidableEq, Repr

/-- The external-collaborator boundary: the syntax bridge's renderer
(`ast.unparse`) and the symbolic engine (SymPy).  `sympify` returning
`none` models a raised `SympifyError`; `reify` models rendering a symbolic
value to text and re-parsing it into a native expression node
(`ast.parse(str(e)).body[0].value`), which always succeeds on the engine's
own output. -/
structure Engine (S : Type) : Type where
  unparse : Expr → String
  sympify : String → Option S
  simplify : S → S
  factor : S → S
  expand : S → S
  diff : S → String → S
  integrate : S → String → S
  reify : S → Expr

namespace MathOptimizer

/-- Embeds `MathOptimizer.optimize_node` of `src/optimizer.py`: unparse the
node, `sympify` it (failure propagates), then `simplify`, `factor`, and
`expand` only when the `expand_polynomials` flag is set, finally re-parse
the rendered result into a native node. -/
def optimize_node {S : Type} (E : Engine S) (expandFlag : Bool) (node : Expr) : Option Expr :=
  let expr_str := E.unparse node
  match E.sympify expr_str with
  | none => none
  | some sym_expr =>
    let folded := E.simplify sym_expr
    let factored := E.factor folded
    let final := if expandFlag then E.expand factored else factored
    some (E.reify final)

mutual

/-- Embeds the `ast.NodeTransformer` of `MathOptimizer.optimize_tree`: on a
`BinOp`, `generic_visit` first rewrites the children, then `optimize_node`
rewrites the child-rewritten node; every other node is rebuilt with its
children visited (`generic_visit`) and otherwise left as is. -/
def visitExpr {S : Type} (E : Engine S) (expandFlag : Bool) : Expr → Option Expr
  | .binop l op r => do
    let l' ← visitExpr E expandFlag l
    let r' ← visitExpr E expandFlag r
    optimize_node E expandFlag (.binop l' op r')
  | .call f args => do
    let args' ← visitArgs E expandFlag args
    pure (.call f args')
  | .cmp l r => do
    let l' ← visitExpr E expandFlag l
    let r' ← visitExpr E expandFlag r
    pure (.cmp l' r')
  | .name s => pure (.name s)
  | .num n => pure (.num n)
  | .str s => pure (.str s)

/-- `generic_visit` over an argument list. -/
def visitArgs {S : Type} (E : Engine S) (expandFlag : Bool) : ExprList → Option ExprList
  | .nil => pure .nil
  | .cons e es => do
    let e' ← visitExpr E expandFlag e
    let es' ← visitArgs E expandFlag es
    pure (.cons e' es')

end

/-- The transformer applied to one statement: `generic_visit` rebuilds the
statement around its visited value expression. -/
def optimize_stmt {S : Type} (E : Engine S) (expandFlag : Bool) : Stmt → Option Stmt
  | .assign targets value lineno => do
    let value' ← visitExpr E expandFlag value
    pure (.assign targets value' lineno)
  | .exprStmt value => do
    let value' ← visitExpr E expandFlag value
    pure (.exprStmt value')

/-- Embeds `MathOptimizer.optimize_tree` of `src/optimizer.py` on a module
(list of statements). -/
def optimize_tree {S : Type} (E : Engine S) (expandFlag : Bool) : List Stmt → Option (List Stmt)
  | [] => pure []
  | s :: ss => do
    let s' ← optimize_stmt E expandFlag s
    let ss' ← optimize_tree E expandFlag ss
    pure (s' :: ss')

end MathOptimizer

/-! ### Spec-side optimization pipeline (for refinement against §4.2) -/

/-- Spec-side per-node transform chain, written from the spec's words: the
parsed expression is simplified, the simplified result factored, and, only
when expansion is enabled, `expand` is applied to the factored result. -/
def specChain {S : Type} (E : Engine S) (expandEnabled : Bool) (s : S) : S :=
  (if expandEnabled then E.expand else id) (E.factor (E.simplify s))

/-- Spec-side per-node optimization: render to infix text, parse into a
symbolic expression, run the transform chain, render back into a native
node. -/
def specPerNode {S : Type} (E : Engine S) (expandEnabled : Bool) (e : Expr) : Option Expr :=
  (E.sympify (E.unparse e)).map (fun s => E.reify (specChain E expandEnabled s))

mutual

/-- Spec-side bottom-up rewrite: for a binary-operation node, first
recursively optimize the left and right children, then optimize the
child-optimized node itself; other nodes are left untouched apart from the
recursion into their children. -/
def specOptExpr {S : Type} (E : Engine S) (expandEnabled : Bool) : Expr → Option Expr
  | .binop l op r =>
    (specOptExpr E expandEnabled l).bind (fun l' =>
      (specOptExpr E expandEnabled r).bind (fun r' =>
        specPerNode E expandEnabled (.binop l' op r')))
  | .call f args => (specOptArgs E expandEnabled args).map (fun args' => .call f args')
  | .cmp l r =>
    (specOptExpr E expandEnabled l).bind (fun l' =>
      (specOptExpr E expandEnabled r).map (fun r' => .cmp l' r'))
  | .name s => some (.name s)
  | .num n => some (.num n)
  | .str s => some (.str s)

/-- Spec-side recursion into argument lists. -/
def specOptArgs {S : Type} (E : Engine S) (expandEnabled : Bool) : ExprList → Option ExprList
  | .nil => some .nil
  | .cons e es =>
    (specOptExpr E expandEnabled e).bind (fun e' =>
      (specOptArgs E expandEnabled es).map (fun es' => .cons e' es'))

end

/-- Spec-side optimization of one statement. -/
def specOptStmt {S : Type} (E : Engine S) (expandEnabled : Bool) : Stmt → Option Stmt
  | .assign targets value lineno =>
    (specOptExpr E expandEnabled value).map (fun v' => .assign targets v' lineno)
  | .exprStmt value =>
    (specOptExpr E expandEnabled value).map (fun v' => .exprStmt v')

/-- Spec-side optimization of a module. -/
def specOptTree {S : Type} (E : Engine S) (expandEnabled : Bool) : List Stmt → Option (List Stmt)
  | [] => some []
  | s :: ss =>
    (specOptStmt E expandEnabled s).bind (fun s' =>
      (specOptTree E expandEnabled ss).map (fun ss' => s' :: ss'))

/-! ### Binary-operation content (for the frame property §8) -/

mutual

/-- Whether an expression contains a binary-operation node. -/
def hasBinOpE : Expr → Bool
  | .binop _ _ _ => true
  | .call _ args => hasBinOpL args
  | .cmp l r => hasBinOpE l || hasBinOpE r
  | .name _ => false
  | .num _ => false
  | .str _ => false

/-- Whether an argument list contains a binary-operation node. -/
def hasBinOpL : ExprList → Bool
  | .nil => false
  | .cons e es => hasBinOpE e || hasBinOpL es

end

/-- Whether a statement contains a binary-operation node. -/
def hasBinOpS : Stmt → Bool
  | .assign _ value _ => hasBinOpE value
  | .exprStmt value => hasBinOpE value

/-- Whether a module contains a binary-operation node. -/
def hasBinOpM (stmts : List Stmt) : Bool :=
  stmts.any hasBinOpS

/-! ### The expression extractor (`src/parser.py`) -/

mutual

/-- Embeds the `ast.NodeVisitor` walk of `MathExtractor`: `visit_BinOp`
appends the node to the accumulated list and then `generic_visit`s into its
children; other nodes just `generic_visit`. -/
def extractVisitE (acc : List Expr) : Expr → List Expr
  | .binop l op r => extractVisitE (extractVisitE (acc ++ [.binop l op r]) l) r
  | .call _ args => extractVisitL acc args
  | .cmp l r => extractVisitE (extractVisitE acc l) r
  | .name _ => acc
  | .num _ => acc
  | .str _ => acc

/-- The walk over an argument list. -/
def extractVisitL (acc : List Expr) : ExprList → List Expr
  | .nil => acc
  | .cons e es => extractVisitL (extractVisitE acc e) es

end

/-- The walk over a statement (targets hold no expressions in the embedded
fragment, so only the value is visited). -/
def extractVisitS (acc : List Expr) : Stmt → List Expr
  | .assign _ value _ => extractVisitE acc value
  | .exprStmt value => extractVisitE acc value

/-- The walk over a module. -/
def extractVisitM (acc : List Expr) : List Stmt → List Expr
  | [] => acc
  | s :: ss => extractVisitM (extractVisitS acc s) ss

/-- Embeds the `MathExtractor` instance state: `self.nodes`, the list of
collected binary-operation nodes, initially empty and never reset. -/
structure MathExtractor : Type where
  nodes : List Expr

/-- Embeds `MathExtractor.extract` of `src/parser.py` on an already-parsed
module (parsing the source text is the external syntax bridge): visit the
tree, then return the tree together with `self.nodes`, alongside the
updated instance state. -/
def MathExtractor.extract (self : MathExtractor) (tree : List Stmt) :
    (List Stmt × List Expr) × MathExtractor :=
  let ns := extractVisitM self.nodes tree
  ((tree, ns), ⟨ns⟩)

mutual

/-- Spec-side enumeration: the binary-operation nodes of an expression in
parent-before-child order. -/
def preorderE : Expr → List Expr
  | .binop l op r => .binop l op r :: (preorderE l ++ preorderE r)
  | .call _ args => preorderL args
  | .cmp l r => preorderE l ++ preorderE r
  | .name _ => []
  | .num _ => []
  | .str _ => []

/-- Spec-side enumeration over an argument list. -/
def preorderL : ExprList → List Expr
  | .nil => []
  | .cons e es => preorderE e ++ preorderL es

end

/-- Spec-side enumeration over a statement. -/
def preorderS : Stmt → List Expr
  | .assign _ value _ => preorderE value
  | .exprStmt value => preorderE value

/-- Spec-side enumeration over a module. -/
def preorderM (stmts : List Stmt) : List Expr :=
  stmts.flatMap preorderS

/-- Whether a node is a binary-operation node. -/
def isBinOp : Expr → Bool
  | .binop _ _ _ => true
  | _ => false

mutual

/-- Whether `n` occurs as a subterm of the expression (the expression
itself included). -/
def occursE (n : Expr) : Expr → Bool
  | .binop l op r => n = .binop l op r || occursE n l || occursE n r
  | .call f args => n = .call f args || occursL n args
  | .cmp l r => n = .cmp l r || occursE n l || occursE n r
  | .name s => n = .name s
  | .num k => n = .num k
  | .str s => n = .str s

/-- Whether `n` occurs as a subterm of some element of the list. -/
def occursL (n : Expr) : ExprList → Bool
  | .nil => false
  | .cons e es => occursE n e || occursL n es

end

/-- Whether `n` occurs as a subterm of some expression of the statement. -/
def occursS (n : Expr) : Stmt → Bool
  | .assign _ value _ => occursE n value
  | .exprStmt value => occursE n value

/-- Whether `n` occurs as a subterm of some expression of the module. -/
def occursM (n : Expr) (stmts : List Stmt) : Bool :=
  stmts.any (occursS n)

/-! ### The calculus transform (`CalcTransformer` in `src/main.py`) -/

namespace CalcTransformer

/-- Embeds `CalcTransformer.visit_Assign` of `src/main.py`.  The Python
code takes `node.targets[0]` and proceeds only when it is an `ast.Name`
(the guard `isinstance(node.value, ast.AST)` is always true).  `do_diff`
and `do_int` are computed from the same variable name and line number; the
differentiation step runs first, and the integration step then re-renders
and re-parses the *current* value, i.e. the possibly already-differentiated
one.  A `sympify` failure (`none`) models the uncaught `SympifyError`. -/
def visit_Assign {S : Type} (E : Engine S) (diff_vars int_vars : Finset String)
    (diff_lines : Finset Int) : Stmt → Option Stmt
  | .assign targets value lineno =>
    match targets with
    | .name varname :: _ =>
      let do_diff := decide (varname ∈ diff_vars) &&
        (decide (diff_lines = ∅) || decide (lineno ∈ diff_lines))
      let do_int := decide (varname ∈ int_vars) &&
        (decide (diff_lines = ∅) || decide (lineno ∈ diff_lines))
      let step1 : Option Expr :=
        if do_diff then
          (E.sympify (E.unparse value)).map (fun expr => E.reify (E.diff expr varname))
        else some value
      match step1 with
      | none => none
      | some v1 =>
        let step2 : Option Expr :=
          if do_int then
            (E.sympify (E.unparse v1)).map (fun expr => E.reify (E.integrate expr varname))
          else some v1
        match step2 with
        | none => none
        | some v2 => some (.assign targets v2 lineno)
    | _ => some (.assign targets value lineno)
  | s => some s

/-- The whole pass: `CalcTransformer().visit(tree)` applied to a module of
statements. -/
def apply {S : Type} (E : Engine S) (diff_vars int_vars : Finset String)
    (diff_lines : Finset Int) : List Stmt → Option (List Stmt)
  | [] => some []
  | s :: ss => do
    let s' ← visit_Assign E diff_vars int_vars diff_lines s
    let ss' ← apply E diff_vars int_vars diff_lines ss
    pure (s' :: ss')

end CalcTransformer

/-! ### Spec-side calculus transform (for the filter semantics of §4.3) -/

/-- Spec-side line-filter semantics: the filter allows a line when it is
empty or contains the line number. -/
def lineFilterAllows (lineFilter : Finset Int) (n : Int) : Prop :=
  lineFilter = ∅ ∨ n ∈ lineFilter

instance (lineFilter : Finset Int) (n : Int) : Decidable (lineFilterAllows lineFilter n) :=
  inferInstanceAs (Decidable (_ ∨ _))

/-- Spec-side selection: a variable is selected when it is in the variable
set and the line filter allows the statement's line. -/
def specSelected (v : String) (vars : Finset String) (lineFilter : Finset Int) (n : Int) : Prop :=
  v ∈ vars ∧ lineFilterAllows lineFilter n

instance (v : String) (vars : Finset String) (lineFilter : Finset Int) (n : Int) :
    Decidable (specSelected v vars lineFilter n) :=
  inferInstanceAs (Decidable (_ ∧ _))

/-- Spec-side calculus transform of one statement, written from the spec's
words: a replacement applies if and only if the target name is selected
under the line filter; differentiation first, integration then acting on
the current (possibly differentiated) value. -/
def specVisitAssign {S : Type} (E : Engine S) (diffVars intVars : Finset String)
    (lineFilter : Finset Int) : Stmt → Option Stmt
  | .assign (.name v :: rest) value n =>
    let afterDiff : Option Expr :=
      if specSelected v diffVars lineFilter n then
        (E.sympify (E.unparse value)).map (fun s => E.reify (E.diff s v))
      else some value
    afterDiff.bind (fun v1 =>
      (if specSelected v intVars lineFilter n then
        (E.sympify (E.unparse v1)).map (fun s => E.reify (E.integrate s v))
      else some v1).map (fun v2 => .assign (.name v :: rest) v2 n))
  | s => some s

/-! ### `parse_line_set` (`src/main.py`), embedded at the character level -/

/-- Python `str.split(sep)` on a single-character separator; note that
splitting the empty string yields one empty part, as in Python. -/
def pySplit (sep : Char) : List Char → List (List Char)
  | [] => [[]]
  | c :: cs =>
    if c = sep then [] :: pySplit sep cs
    else
      match pySplit sep cs with
      | t :: ts => (c :: t) :: ts
      | [] => [[c]]

/-- Python `str.strip()`: drop whitespace from both ends. -/
def pyStrip (s : List Char) : List Char :=
  ((s.dropWhile Char.isWhitespace).reverse.dropWhile Char.isWhitespace).reverse

/-- Decimal value of a digit character, `none` on a non-digit. -/
def digitVal (c : Char) : Option Nat :=
  if c.isDigit then some (c.toNat - '0'.toNat) else none

/-- Accumulating decimal reading of a digit list (most significant digit
first); fails on the first non-digit. -/
def digitsAcc : List Char → Nat → Option Nat
  | [], acc => some acc
  | c :: cs, acc =>
    match digitVal c with
    | some d => digitsAcc cs (acc * 10 + d)
    | none => none

/-- Decimal reading of a non-empty all-digit list. -/
def digitsToNat : List Char → Option Nat
  | [] => none
  | c :: cs => digitsAcc (c :: cs) 0

/-- Models Python's `int()` on the tokens this program feeds it: optional
surrounding whitespace, an optional single leading sign, then decimal
digits; `none` models a raised `ValueError`. -/
def pyInt (s : List Char) : Option Int :=
  match pyStrip s with
  | [] => none
  | c :: cs =>
    if c = '-' then (digitsToNat cs).map (fun n => -(Int.ofNat n))
    else if c = '+' then (digitsToNat cs).map Int.ofNat
    else (digitsToNat (c :: cs)).map Int.ofNat

/-- Python `part.split("-", 1)` when `"-"` occurs in `part`: the characters
strictly before the first `'-'` and everything after it. -/
def splitFirst (sep : Char) : List Char → List Char × List Char
  | [] => ([], [])
  | c :: cs =>
    if c = sep then ([], cs)
    else
      let p := splitFirst sep cs
      (c :: p.1, p.2)

/-- Python `range(a, b + 1)` as a set of integers. -/
def pyRange (a b : Int) : Finset Int :=
  Finset.Ico a (b + 1)

/-- The loop body of `parse_line_set` over the comma-separated parts:
strip each part, skip empty parts, treat parts containing `'-'` as
inclusive ranges (split at the first `'-'`) and other parts as single
integers; an unparseable integer aborts (`none`, modelling the uncaught
`ValueError`). -/
def parseLineParts : List (List Char) → Option (Finset Int)
  | [] => some ∅
  | p :: ps =>
    let part := pyStrip p
    if part = [] then parseLineParts ps
    else if part.contains '-' then
      match pyInt (splitFirst '-' part).1, pyInt (splitFirst '-' part).2 with
      | some a, some b => (parseLineParts ps).map (fun rest => pyRange a b ∪ rest)
      | _, _ => none
    else
      match pyInt part with
      | some a => (parseLineParts ps).map (fun rest => insert a rest)
      | none => none

/-- Embeds `parse_line_set` of `src/main.py`: turn a comma-separated
specification of integers and inclusive ranges into the set of selected
line numbers. -/
def parse_line_set (spec : String) : Option (Finset Int) :=
  parseLineParts (pySplit ',' spec.toList)

/-- Decimal rendering of a natural number (the canonical digit token of a
line specification), most significant digit first. -/
def natChars (n : Nat) : List Char :=
  if n = 0 then ['0']
  else ((Nat.digits 10 n).map (fun d => Char.ofNat ('0'.toNat + d))).reverse

/-! ### Denotational semantics and the engine's equivalence (§3, §8)

The spec requires every transform applied by either pass to be
value-preserving.  We capture "value" by a compositional interpretation of
the native expressions and a valuation of symbolic expressions, and the
requirement by `EngineLaws`. -/

/-- A compositional interpretation of the native expression nodes into a
value domain. -/
structure Interp (V : Type) : Type where
  nameV : String → V
  numV : Int → V
  strV : String → V
  opV : Op → V → V → V
  callV : String → List V → V
  cmpV : V → V → V

mutual

/-- The value of a native expression under an interpretation. -/
def dvalE {V : Type} (I : Interp V) : Expr → V
  | .name s => I.nameV s
  | .num n => I.numV n
  | .str s => I.strV s
  | .binop l op r => I.opV op (dvalE I l) (dvalE I r)
  | .call f args => I.callV f (dvalL I args)
  | .cmp l r => I.cmpV (dvalE I l) (dvalE I r)

/-- The values of an argument list under an interpretation. -/
def dvalL {V : Type} (I : Interp V) : ExprList → List V
  | .nil => []
  | .cons e es => dvalE I e :: dvalL I es

end

/-- The value of a statement: the value of its expression content. -/
def dvalS {V : Type} (I : Interp V) : Stmt → V
  | .assign _ value _ => dvalE I value
  | .exprStmt value => dvalE I value

/-- Statement-wise values of a module. -/
def dvalM {V : Type} (I : Interp V) (stmts : List Stmt) : List V :=
  stmts.map (dvalS I)

/-- The spec's requirements on the external collaborators: parsing rendered
text preserves the value, the three algebraic transforms preserve the
value, and rendering a symbolic expression back into a native node
preserves the value. -/
structure EngineLaws {S V : Type} (E : Engine S) (I : Interp V) (val : S → V) : Prop where
  sympify_sound : ∀ e s, E.sympify (E.unparse e) = some s → val s = dvalE I e
  simplify_val : ∀ s, val (E.simplify s) = val s
  factor_val : ∀ s, val (E.factor s) = val s
  expand_val : ∀ s, val (E.expand s) = val s
  reify_val : ∀ s, dvalE I (E.reify s) = val s

/-! ### Concrete engine instances (used by the witnesses) -/

/-- A rejecting engine: its `sympify` fails on every string (a symbolic
engine that supports no expression at all). -/
def rejectEngine : Engine Nat where
  unparse := fun _ => ""
  sympify := fun _ => none
  simplify := id
  factor := id
  expand := id
  diff := fun s _ => s
  integrate := fun s _ => s
  reify := fun s => .num (Int.ofNat s)

/-- A tagging engine over strings: `sympify` accepts everything, and
differentiation and integration tag their argument, so that a rewritten
value is visibly distinct from the original. -/
def tagEngine : Engine String where
  unparse := fun _ => "e"
  sympify := fun s => some s
  simplify := id
  factor := id
  expand := id
  diff := fun s _ => "D" ++ s
  integrate := fun s _ => "J" ++ s
  reify := fun s => .name s

/-- The interpretation of expressions into natural numbers used by the
unary engine: numbers by truncation, arithmetic pointwise, everything
non-arithmetic as `0`. -/
def unaryInterp : Interp Nat where
  nameV := fun _ => 0
  numV := Int.toNat
  strV := fun _ => 0
  opV := fun op x y =>
    match op with
    | .add => x + y
    | .sub => x - y
    | .mul => x * y
    | .div => x / y
    | .pow => x ^ y
  callV := fun _ _ => 0
  cmpV := fun _ _ => 0

/-- A value-faithful engine: it renders an expression as the unary numeral
of its value, parses a string as its length, applies identity transforms,
and reifies a symbolic value as a numeric literal.  It satisfies all of
`EngineLaws` for `unaryInterp`. -/
def unaryEngine : Engine Nat where
  unparse := fun e => String.mk (List.replicate (dvalE unaryInterp e) 'I')
  sympify := fun s => some s.length
  simplify := id
  factor := id
  expand := id
  diff := fun s _ => s
  integrate := fun s _ => s
  reify := fun s => .num (Int.ofNat s)

/-- Whether the first target of an assignment is a plain name (the shape
the calculus transform acts on); false for every other statement. -/
def calcEligible : Stmt → Bool
  | .assign (.name _ :: _) _ _ => true
  | _ => false

/-- A concrete module with nested binary operations:
`y = 4 * (2 + 3)` on line 1. -/
def sampleTree : List Stmt :=
  [.assign [.name "y"] (.binop (.num 4) .mul (.binop (.num 2) .add (.num 3))) 1]

/-- The result of optimizing `sampleTree` with the `unaryEngine`:
`y = 20`. -/
def sampleTree1 : List Stmt :=
  [.assign [.name "y"] (.num 20) 1]

/-! ### Helper lemmas -/

theorem optimize_node_eq_specPerNode {S : Type} (E : Engine S) (b : Bool) (node : Expr) :
    MathOptimizer.optimize_node E b node = specPerNode E b node := by
  cases h : E.sympify (E.unparse node) with
  | none => simp [MathOptimizer.optimize_node, specPerNode, h]
  | some s => cases b <;> simp [MathOptimizer.optimize_node, specPerNode, specChain, h]

mutual

theorem visitE_spec {S : Type} (E : Engine S) (b : Bool) :
    ∀ e : Expr, MathOptimizer.visitExpr E b e = specOptExpr E b e
  | .binop l op r => by
    rw [MathOptimizer.visitExpr, specOptExpr]
    simp only [visitE_spec E b l, visitE_spec E b r, optimize_node_eq_specPerNode,
      Option.bind_eq_bind]
  | .call f args => by
    rw [MathOptimizer.visitExpr, specOptExpr]
    simp only [visitA_spec E b args, Option.bind_eq_bind]
    cases specOptArgs E b args <;> rfl
  | .cmp l r => by
    rw [MathOptimizer.visitExpr, specOptExpr]
    simp only [visitE_spec E b l, visitE_spec E b r, Option.bind_eq_bind]
    cases specOptExpr E b l <;> cases specOptExpr E b r <;> rfl
  | .name s => rfl
  | .num n => rfl
  | .str s => rfl

theorem visitA_spec {S : Type} (E : Engine S) (b : Bool) :
    ∀ es : ExprList, MathOptimizer.visitArgs E b es = specOptArgs E b es
  | .nil => rfl
  | .cons e es => by
    rw [MathOptimizer.visitArgs, specOptArgs]
    simp only [visitE_spec E b e, visitA_spec E b es, Option.bind_eq_bind]
    cases specOptExpr E b e <;> cases specOptArgs E b es <;> rfl

end

theorem optimize_stmt_eq_spec {S : Type} (E : Engine S) (b : Bool) (s : Stmt) :
    MathOptimizer.optimize_stmt E b s = specOptStmt E b s := by
  cases s with
  | assign tg v n =>
    simp only [MathOptimizer.optimize_stmt, specOptStmt, visitE_spec, Option.bind_eq_bind]
    cases specOptExpr E b v <;> rfl
  | exprStmt v =>
    simp only [MathOptimizer.optimize_stmt, specOptStmt, visitE_spec, Option.bind_eq_bind]
    cases specOptExpr E b v <;> rfl

theorem optimize_tree_eq_spec {S : Type} (E : Engine S) (b : Bool) :
    ∀ tree : List Stmt, MathOptimizer.optimize_tree E b tree = specOptTree E b tree
  | [] => rfl
  | s :: ss => by
    simp only [MathOptimizer.optimize_tree, specOptTree, optimize_stmt_eq_spec,
      optimize_tree_eq_spec E b ss, Option.bind_eq_bind]
    cases specOptStmt E b s <;> cases specOptTree E b ss <;> rfl

mutual

theorem visitE_no_binop {S : Type} (E : Engine S) (b : Bool) :
    ∀ e : Expr, hasBinOpE e = false → MathOptimizer.visitExpr E b e = some e
  | .binop _ _ _, h => by simp [hasBinOpE] at h
  | .call f args, h => by
    rw [MathOptimizer.visitExpr]
    rw [visitA_no_binop E b args (by simpa [hasBinOpE] using h)]
    rfl
  | .cmp l r, h => by
    rw [MathOptimizer.visitExpr]
    have hl : hasBinOpE l = false := by
      revert h; simp [hasBinOpE]; tauto
    have hr : hasBinOpE r = false := by
      revert h; simp [hasBinOpE]
    rw [visitE_no_binop E b l hl, visitE_no_binop E b r hr]
    rfl
  | .name s, _ => rfl
  | .num n, _ => rfl
  | .str s, _ => rfl

theorem visitA_no_binop {S : Type} (E : Engine S) (b : Bool) :
    ∀ es : ExprList, hasBinOpL es = false → MathOptimizer.visitArgs E b es = some es
  | .nil, _ => rfl
  | .cons e es, h => by
    rw [MathOptimizer.visitArgs]
    have he : hasBinOpE e = false := by
      revert h; simp [hasBinOpL]; tauto
    have hes : hasBinOpL es = false := by
      revert h; simp [hasBinOpL]
    rw [visitE_no_binop E b e he, visitA_no_binop E b es hes]
    rfl

end

theorem optimize_stmt_no_binop {S : Type} (E : Engine S) (b : Bool) (s : Stmt)
    (h : hasBinOpS s = false) : MathOptimizer.optimize_stmt E b s = some s := by
  cases s with
  | assign tg v n =>
    rw [MathOptimizer.optimize_stmt, visitE_no_binop E b v (by simpa [hasBinOpS] using h)]
    rfl
  | exprStmt v =>
    rw [MathOptimizer.optimize_stmt, visitE_no_binop E b v (by simpa [hasBinOpS] using h)]
    rfl

theorem optimize_tree_no_binop {S : Type} (E : Engine S) (b : Bool) :
    ∀ tree : List Stmt, hasBinOpM tree = false → MathOptimizer.optimize_tree E b tree = some tree
  | [], _ => rfl
  | s :: ss, h => by
    have hs : hasBinOpS s = false := by
      revert h; simp [hasBinOpM]; tauto
    have hss : hasBinOpM ss = false := by
      revert h; simp [hasBinOpM, List.any_cons]
    rw [MathOptimizer.optimize_tree, optimize_stmt_no_binop E b s hs,
      optimize_tree_no_binop E b ss hss]
    rfl

mutual

theorem extractVisitE_acc : ∀ (acc : List Expr) (e : Expr),
    extractVisitE acc e = acc ++ preorderE e
  | acc, .binop l op r => by
    rw [extractVisitE, preorderE, extractVisitE_acc _ l, extractVisitE_acc _ r]
    simp
  | acc, .call f args => by
    rw [extractVisitE, preorderE, extractVisitL_acc acc args]
  | acc, .cmp l r => by
    rw [extractVisitE, preorderE, extractVisitE_acc _ l, extractVisitE_acc _ r]
    simp
  | acc, .name s => by simp [extractVisitE, preorderE]
  | acc, .num n => by simp [extractVisitE, preorderE]
  | acc, .str s => by simp [extractVisitE, preorderE]

theorem extractVisitL_acc : ∀ (acc : List Expr) (es : ExprList),
    extractVisitL acc es = acc ++ preorderL es
  | acc, .nil => by simp [extractVisitL, preorderL]
  | acc, .cons e es => by
    rw [extractVisitL, preorderL, extractVisitE_acc acc e, extractVisitL_acc _ es]
    simp

end

theorem extractVisitS_acc (acc : List Expr) (s : Stmt) :
    extractVisitS acc s = acc ++ preorderS s := by
  cases s <;> simp [extractVisitS, preorderS, extractVisitE_acc]

theorem extractVisitM_acc : ∀ (acc : List Expr) (tree : List Stmt),
    extractVisitM acc tree = acc ++ preorderM tree
  | acc, [] => by simp [extractVisitM, preorderM]
  | acc, s :: ss => by
    rw [extractVisitM, extractVisitS_acc acc s, extractVisitM_acc _ ss]
    simp [preorderM]

mutual

theorem mem_preorderE : ∀ (n e : Expr),
    n ∈ preorderE e ↔ (isBinOp n = true ∧ occursE n e = true)
  | n, .binop l op r => by
    rw [preorderE, occursE]
    simp only [List.mem_cons, List.mem_append, mem_preorderE n l, mem_preorderE n r,
      Bool.or_eq_true, decide_eq_true_eq]
    constructor
    · rintro (h | ⟨hb, ho⟩ | ⟨hb, ho⟩)
      · subst h; exact ⟨rfl, Or.inl (Or.inl (by simp))⟩
      · exact ⟨hb, Or.inl (Or.inr ho)⟩
      · exact ⟨hb, Or.inr ho⟩
    · rintro ⟨hb, (h | ho) | ho⟩
      · left; exact_mod_cast (by simpa using h)
      · right; left; exact ⟨hb, ho⟩
      · right; right; exact ⟨hb, ho⟩
  | n, .call f args => by
    rw [preorderE, occursE]
    simp only [mem_preorderL n args, Bool.or_eq_true, decide_eq_true_eq]
    constructor
    · rintro ⟨hb, ho⟩; exact ⟨hb, Or.inr ho⟩
    · rintro ⟨hb, h | ho⟩
      · subst h; simp [isBinOp] at hb
      · exact ⟨hb, ho⟩
  | n, .cmp l r => by
    rw [preorderE, occursE]
    simp only [List.mem_append, mem_preorderE n l, mem_preorderE n r,
      Bool.or_eq_true, decide_eq_true_eq]
    constructor
    · rintro (⟨hb, ho⟩ | ⟨hb, ho⟩)
      · exact ⟨hb, Or.inl (Or.inr ho)⟩
      · exact ⟨hb, Or.inr ho⟩
    · rintro ⟨hb, (h | ho) | ho⟩
      · subst h; simp [isBinOp] at hb
      · left; exact ⟨hb, ho⟩
      · right; exact ⟨hb, ho⟩
  | n, .name s => by
    rw [preorderE, occursE]
    simp only [List.not_mem_nil, false_iff, not_and, decide_eq_true_eq]
    rintro hb rfl; simp [isBinOp] at hb
  | n, .num k => by
    rw [preorderE, occursE]
    simp only [List.not_mem_nil, false_iff, not_and, decide_eq_true_eq]
    rintro hb rfl; simp [isBinOp] at hb
  | n, .str s => by
    rw [preorderE, occursE]
    simp only [List.not_mem_nil, false_iff, not_and, decide_eq_true_eq]
    rintro hb rfl; simp [isBinOp] at hb

theorem mem_preorderL : ∀ (n : Expr) (es : ExprList),
    n ∈ preorderL es ↔ (isBinOp n = true ∧ occursL n es = true)
  | n, .nil => by simp [preorderL, occursL]
  | n, .cons e es => by
    rw [preorderL, occursL]
    simp only [List.mem_append, mem_preorderE n e, mem_preorderL n es,
      Bool.or_eq_true]
    tauto

end

theorem mem_preorderS (n : Expr) (s : Stmt) :
    n ∈ preorderS s ↔ (isBinOp n = true ∧ occursS n s = true) := by
  cases s <;> simp [preorderS, occursS, mem_preorderE]

theorem mem_preorderM (n : Expr) (tree : List Stmt) :
    n ∈ preorderM tree ↔ (isBinOp n = true ∧ occursM n tree = true) := by
  simp only [preorderM, List.mem_flatMap, occursM, List.any_eq_true]
  constructor
  · rintro ⟨s, hs, hn⟩
    rcases (mem_preorderS n s).1 hn with ⟨hb, ho⟩
    exact ⟨hb, s, hs, ho⟩
  · rintro ⟨hb, s, hs, ho⟩
    exact ⟨s, hs, (mem_preorderS n s).2 ⟨hb, ho⟩⟩

theorem calcGuard_eq_decide (v : String) (vars : Finset String) (dl : Finset Int) (n : Int) :
    (decide (v ∈ vars) && (decide (dl = ∅) || decide (n ∈ dl)))
      = decide (specSelected v vars dl n) := by
  by_cases h1 : v ∈ vars <;> by_cases h2 : dl = ∅ <;> by_cases h3 : n ∈ dl <;>
    simp [specSelected, lineFilterAllows, h1, h2, h3]

theorem visit_Assign_eq_spec {S : Type} (E : Engine S) (dv iv : Finset String)
    (dl : Finset Int) (s : Stmt) :
    CalcTransformer.visit_Assign E dv iv dl s = specVisitAssign E dv iv dl s := by
  cases s with
  | exprStmt v => rfl
  | assign targets value n =>
    cases targets with
    | nil => rfl
    | cons t rest =>
      cases t with
      | tup ts => rfl
      | attr base field => rfl
      | name v =>
        simp only [CalcTransformer.visit_Assign, specVisitAssign, calcGuard_eq_decide]
        by_cases hd : specSelected v dv dl n <;> by_cases hi : specSelected v iv dl n <;>
          simp only [hd, hi, decide_eq_true_eq, if_true, if_false, iff_true, iff_false,
            if_pos, if_neg, not_false_iff] <;>
          try simp only [Option.some_bind]
        · cases h1 : E.sympify (E.unparse value) with
          | none => rfl
          | some s1 =>
            simp only [Option.map_some', Option.some_bind]
            cases h2 : E.sympify (E.unparse (E.reify (E.diff s1 v))) <;> simp [h2]
        · cases h1 : E.sympify (E.unparse value) <;> simp [h1]
        · cases h1 : E.sympify (E.unparse value) <;> simp [h1]
        · rfl

/-- Claim C2: for every assignment whose target name is selected for both
differentiation and integration and which passes the line filter, the
transform first replaces the value with its derivative and then replaces
that already-differentiated value with its antiderivative: the integration
step re-renders and re-parses the differentiated value, never the original
expression. -/
theorem C2_integration_acts_on_differentiated {S : Type} (E : Engine S)
    (dv iv : Finset String)
    (dl : Finset Int) (v : String) (rest : List Tgt) (value : Expr) (n : Int)
    (hd : v ∈ dv) (hi : v ∈ iv) (hl : lineFilterAllows dl n) :
    CalcTransformer.visit_Assign E dv iv dl (.assign (.name v :: rest) value n) =
      (E.sympify (E.unparse value)).bind (fun s1 =>
        (E.sympify (E.unparse (E.reify (E.diff s1 v)))).map (fun s2 =>
          .assign (.name v :: rest) (E.reify (E.integrate s2 v)) n)) := by
  have hsd : specSelected v dv dl n := ⟨hd, hl⟩
  have hsi : specSelected v iv dl n := ⟨hi, hl⟩
  rw [visit_Assign_eq_spec]
  simp only [specVisitAssign, hsd, hsi, if_pos]
  cases h1 : E.sympify (E.unparse value) with
  | none => rfl
  | some s1 =>
    simp only [Option.map_some', Option.some_bind]
    cases h2 : E.sympify (E.unparse (E.reify (E.diff s1 v))) <;> simp [h2]

/-- Claim C5 (amended): the calculus transform leaves unmodified every
statement that is not an assignment whose *first* target is a plain name:
non-assignment statements and assignments whose first target is a tuple or
attribute target pass through unchanged.  (It is the first target alone
that is inspected, so a multi-target assignment whose first target is a
selected name is modified — see the counterexample.) -/
theorem C5_amended_first_target_decides {S : Type} (E : Engine S) (dv iv : Finset String)
    (dl : Finset Int) (s : Stmt) (h : calcEligible s = false) :
    CalcTransformer.visit_Assign E dv iv dl s = some s := by
  cases s with
  | exprStmt v => rfl
  | assign targets value n =>
    cases targets with
    | nil => rfl
    | cons t rest =>
      cases t with
      | tup ts => rfl
      | attr base field => rfl
      | name v => simp [calcEligible] at h

theorem optimize_node_none_iff {S : Type} (E : Engine S) (b : Bool) (node : Expr) :
    MathOptimizer.optimize_node E b node = none ↔ E.sympify (E.unparse node) = none := by
  cases h : E.sympify (E.unparse node) <;>
    simp [MathOptimizer.optimize_node, h]

theorem optimize_tree_none_of_mem {S : Type} (E : Engine S) (b : Bool) :
    ∀ (tree : List Stmt) (s : Stmt), s ∈ tree →
      MathOptimizer.optimize_stmt E b s = none →
      MathOptimizer.optimize_tree E b tree = none
  | [], s, hs, _ => absurd hs (List.not_mem_nil s)
  | t :: ts, s, hs, hnone => by
    rcases List.mem_cons.mp hs with h | h
    · subst h
      rw [MathOptimizer.optimize_tree, hnone]
      rfl
    · rw [MathOptimizer.optimize_tree]
      rw [optimize_tree_none_of_mem E b ts s h hnone]
      cases MathOptimizer.optimize_stmt E b t <;> rfl

theorem optimize_node_dval {S V : Type} {E : Engine S} {I : Interp V} {val : S → V}
    (L : EngineLaws E I val) (b : Bool) (node e' : Expr)
    (h : MathOptimizer.optimize_node E b node = some e') :
    dvalE I e' = dvalE I node := by
  cases hsym : E.sympify (E.unparse node) with
  | none => simp [MathOptimizer.optimize_node, hsym] at h
  | some s =>
    simp only [MathOptimizer.optimize_node, hsym, Option.some.injEq] at h
    subst h
    cases b <;>
      simp [L.reify_val, L.expand_val, L.factor_val, L.simplify_val, L.sympify_sound node s hsym]

mutual

theorem visitE_dval {S V : Type} {E : Engine S} {I : Interp V} {val : S → V}
    (L : EngineLaws E I val) (b : Bool) :
    ∀ (e e' : Expr), MathOptimizer.visitExpr E b e = some e' → dvalE I e' = dvalE I e
  | .binop l op r, e', h => by
    rw [MathOptimizer.visitExpr] at h
    simp only [Option.bind_eq_bind, Option.bind_eq_some] at h
    rcases h with ⟨l', hl, r', hr, hnode⟩
    rw [optimize_node_dval L b _ e' hnode]
    rw [dvalE, dvalE, visitE_dval L b l l' hl, visitE_dval L b r r' hr]
  | .call f args, e', h => by
    rw [MathOptimizer.visitExpr] at h
    simp only [Option.pure_def, Option.bind_eq_bind, Option.bind_eq_some, Option.some.injEq] at h
    rcases h with ⟨args', hargs, rfl⟩
    rw [dvalE, dvalE, visitA_dval L b args args' hargs]
  | .cmp l r, e', h => by
    rw [MathOptimizer.visitExpr] at h
    simp only [Option.pure_def, Option.bind_eq_bind, Option.bind_eq_some, Option.some.injEq] at h
    rcases h with ⟨l', hl, r', hr, rfl⟩
    rw [dvalE, dvalE, visitE_dval L b l l' hl, visitE_dval L b r r' hr]
  | .name s, e', h => by
    rw [MathOptimizer.visitExpr] at h
    simp only [Option.pure_def, Option.some.injEq] at h
    subst h
    rfl
  | .num n, e', h => by
    rw [MathOptimizer.visitExpr] at h
    simp only [Option.pure_def, Option.some.injEq] at h
    subst h
    rfl
  | .str s, e', h => by
    rw [MathOptimizer.visitExpr] at h
    simp only [Option.pure_def, Option.some.injEq] at h
    subst h
    rfl

theorem visitA_dval {S V : Type} {E : Engine S} {I : Interp V} {val : S → V}
    (L : EngineLaws E I val) (b : Bool) :
    ∀ (es es' : ExprList), MathOptimizer.visitArgs E b es = some es' → dvalL I es' = dvalL I es
  | .nil, es', h => by
    rw [MathOptimizer.visitArgs] at h
    simp only [Option.pure_def, Option.some.injEq] at h
    subst h
    rfl
  | .cons e es, es', h => by
    rw [MathOptimizer.visitArgs] at h
    simp only [Option.pure_def, Option.bind_eq_bind, Option.bind_eq_some, Option.some.injEq] at h
    rcases h with ⟨e', he, es2, hes, rfl⟩
    rw [dvalL, dvalL, visitE_dval L b e e' he, visitA_dval L b es es2 hes]

end

theorem optimize_stmt_dval {S V : Type} {E : Engine S} {I : Interp V} {val : S → V}
    (L : EngineLaws E I val) (b : Bool) (s s' : Stmt)
    (h : MathOptimizer.optimize_stmt E b s = some s') : dvalS I s' = dvalS I s := by
  cases s with
  | assign tg v n =>
    rw [MathOptimizer.optimize_stmt] at h
    simp only [Option.pure_def, Option.bind_eq_bind, Option.bind_eq_some, Option.some.injEq] at h
    rcases h with ⟨v', hv, rfl⟩
    rw [dvalS, dvalS, visitE_dval L b v v' hv]
  | exprStmt v =>
    rw [MathOptimizer.optimize_stmt] at h
    simp only [Option.pure_def, Option.bind_eq_bind, Option.bind_eq_some, Option.some.injEq] at h
    rcases h with ⟨v', hv, rfl⟩
    rw [dvalS, dvalS, visitE_dval L b v v' hv]

theorem optimize_tree_dval {S V : Type} {E : Engine S} {I : Interp V} {val : S → V}
    (L : EngineLaws E I val) (b : Bool) :
    ∀ (t t' : List Stmt), MathOptimizer.optimize_tree E b t = some t' → dvalM I t' = dvalM I t
  | [], t', h => by
    rw [MathOptimizer.optimize_tree] at h
    simp only [Option.pure_def, Option.some.injEq] at h
    subst h
    rfl
  | s :: ss, t', h => by
    rw [MathOptimizer.optimize_tree] at h
    simp only [Option.pure_def, Option.bind_eq_bind, Option.bind_eq_some, Option.some.injEq] at h
    rcases h with ⟨s', hs, ss', hss, rfl⟩
    rw [dvalM, dvalM, List.map_cons, List.map_cons,
      optimize_stmt_dval L b s s' hs]
    have := optimize_tree_dval L b ss ss' hss
    rw [dvalM, dvalM] at this
    rw [this]

theorem unaryEngineLaws : EngineLaws unaryEngine unaryInterp id := by
  constructor
  · intro e s h
    simp only [unaryEngine, Option.some.injEq] at h
    subst h
    simp [String.length, List.length_replicate]
  · intro s; rfl
  · intro s; rfl
  · intro s; rfl
  · intro s
    simp [unaryEngine, dvalE, unaryInterp]

theorem digitVal_ofDigit (d : Nat) (hd : d < 10) :
    digitVal (Char.ofNat ('0'.toNat + d)) = some d := by
  interval_cases d <;> decide

theorem digitsAcc_map_digits : ∀ (ds : List Nat), (∀ d ∈ ds, d < 10) → ∀ (acc : Nat),
    digitsAcc (ds.map (fun d => Char.ofNat ('0'.toNat + d))) acc
      = some (ds.foldl (fun a d => a * 10 + d) acc)
  | [], _, acc => rfl
  | d :: ds, h, acc => by
    have h1 := digitVal_ofDigit d (h d (by simp))
    simp only [List.map_cons, digitsAcc, h1]
    rw [digitsAcc_map_digits ds (fun x hx => h x (by simp [hx])) (acc * 10 + d)]
    rfl

theorem foldr_eq_ofDigits : ∀ l : List Nat,
    l.foldr (fun d a => a * 10 + d) 0 = Nat.ofDigits 10 l
  | [] => rfl
  | d :: l => by
    rw [List.foldr_cons, foldr_eq_ofDigits l, Nat.ofDigits_cons]
    ring_nf

theorem digitsToNat_natChars (n : Nat) : digitsToNat (natChars n) = some n := by
  rcases Nat.eq_zero_or_pos n with rfl | hn
  · decide
  · have hne : Nat.digits 10 n ≠ [] := Nat.digits_ne_nil_iff_ne_zero.mpr hn.ne'
    rw [natChars, if_neg hn.ne']
    rw [← List.map_reverse]
    have hlt : ∀ d ∈ (Nat.digits 10 n).reverse, d < 10 := by
      intro d hd
      exact Nat.digits_lt_base (by norm_num) (List.mem_reverse.mp hd)
    have hcons : ∃ c cs, ((Nat.digits 10 n).reverse.map (fun d => Char.ofNat ('0'.toNat + d)))
        = c :: cs := by
      rcases List.exists_cons_of_ne_nil
        (by simpa using hne : (Nat.digits 10 n).reverse ≠ []) with ⟨d, ds, hds⟩
      exact ⟨_, _, by rw [hds, List.map_cons]⟩
    rcases hcons with ⟨c, cs, hcs⟩
    rw [hcs, digitsToNat, ← hcs, digitsAcc_map_digits _ hlt 0]
    rw [List.foldl_reverse]
    have : (Nat.digits 10 n).foldr (fun d a => a * 10 + d) 0 = n := by
      rw [foldr_eq_ofDigits, Nat.ofDigits_digits]
    simp only [this]

theorem mem_natChars_isDigit (n : Nat) : ∀ c ∈ natChars n, c.isDigit = true := by
  intro c hc
  rw [natChars] at hc
  split at hc
  · simp at hc
    subst hc
    decide
  · rw [List.mem_reverse, List.mem_map] at hc
    rcases hc with ⟨d, hd, rfl⟩
    have hlt : d < 10 := Nat.digits_lt_base (by norm_num) hd
    interval_cases d <;> decide

theorem natChars_ne_nil (n : Nat) : natChars n ≠ [] := by
  rw [natChars]
  split
  · simp
  · intro h
    rw [List.reverse_eq_nil_iff, List.map_eq_nil_iff] at h
    exact (Nat.digits_ne_nil_iff_ne_zero.mpr (by assumption)) h

theorem dropWhile_eq_self_of_all (p : Char → Bool) :
    ∀ l : List Char, (∀ c ∈ l, p c = false) → l.dropWhile p = l
  | [], _ => rfl
  | c :: cs, h => by
    rw [List.dropWhile_cons, h c (by simp)]
    simp

theorem pyStrip_eq_self (l : List Char) (h : ∀ c ∈ l, c.isWhitespace = false) :
    pyStrip l = l := by
  rw [pyStrip, dropWhile_eq_self_of_all _ l h,
    dropWhile_eq_self_of_all _ l.reverse (fun c hc => h c (List.mem_reverse.mp hc)),
    List.reverse_reverse]

theorem digit_not_ws (c : Char) (h : c.isDigit = true) : c.isWhitespace = false := by
  by_contra hw
  rw [Bool.not_eq_false, Char.isWhitespace] at hw
  simp only [Bool.or_eq_true, decide_eq_true_eq] at hw
  rcases hw with ((rfl | rfl) | rfl) | rfl <;> exact absurd h (by decide)

theorem digit_ne_dash (c : Char) (h : c.isDigit = true) : c ≠ '-' := by
  intro hc
  subst hc
  simp at h

theorem digit_ne_plus (c : Char) (h : c.isDigit = true) : c ≠ '+' := by
  intro hc
  subst hc
  simp at h

theorem digit_ne_comma (c : Char) (h : c.isDigit = true) : c ≠ ',' := by
  intro hc
  subst hc
  simp at h

theorem pySplit_no_sep (sep : Char) :
    ∀ l : List Char, (∀ c ∈ l, c ≠ sep) → pySplit sep l = [l]
  | [], _ => rfl
  | c :: cs, h => by
    rw [pySplit, if_neg (h c (by simp)), pySplit_no_sep sep cs (fun x hx => h x (by simp [hx]))]

theorem splitFirst_append (sep : Char) :
    ∀ xs ys : List Char, (∀ c ∈ xs, c ≠ sep) →
      splitFirst sep (xs ++ sep :: ys) = (xs, ys)
  | [], ys, _ => by simp [splitFirst]
  | x :: xs, ys, h => by
    rw [List.cons_append, splitFirst, if_neg (h x (by simp)),
      splitFirst_append sep xs ys (fun c hc => h c (by simp [hc]))]

theorem pyInt_digits (l : List Char) (hne : l ≠ []) (hd : ∀ c ∈ l, c.isDigit = true) :
    pyInt l = (digitsToNat l).map Int.ofNat := by
  cases l with
  | nil => exact absurd rfl hne
  | cons c cs =>
    have hdash : ¬(c = '-') := digit_ne_dash c (hd c (by simp))
    have hplus : ¬(c = '+') := digit_ne_plus c (hd c (by simp))
    simp only [pyInt, pyStrip_eq_self _ (fun x hx => digit_not_ws x (hd x hx)), hdash, hplus,
      if_false, ite_false]

theorem pyRange_eq_Icc (a b : Int) : pyRange a b = Finset.Icc a b := by
  rw [pyRange]
  ext x
  simp only [Finset.mem_Ico, Finset.mem_Icc]
  omega

theorem parse_line_set_range (a b : Nat) :
    parse_line_set (String.mk (natChars a ++ '-' :: natChars b))
      = some (Finset.Icc (Int.ofNat a) (Int.ofNat b)) := by
  have htok : ∀ c ∈ natChars a ++ '-' :: natChars b, c.isDigit = true ∨ c = '-' := by
    intro c hc
    rcases List.mem_append.mp hc with h | h
    · exact Or.inl (mem_natChars_isDigit a c h)
    · rcases List.mem_cons.mp h with rfl | h
      · exact Or.inr rfl
      · exact Or.inl (mem_natChars_isDigit b c h)
  have hnosep : ∀ c ∈ natChars a ++ '-' :: natChars b, c ≠ ',' := by
    intro c hc
    rcases htok c hc with h | rfl
    · exact digit_ne_comma c h
    · decide
  have hlist : (String.mk (natChars a ++ '-' :: natChars b)).toList
      = natChars a ++ '-' :: natChars b := rfl
  rw [parse_line_set, hlist, pySplit_no_sep ',' _ hnosep]
  have hnws : ∀ c ∈ natChars a ++ '-' :: natChars b, c.isWhitespace = false := by
    intro c hc
    rcases htok c hc with h | rfl
    · exact digit_not_ws c h
    · decide
  have hstrip := pyStrip_eq_self _ hnws
  have hne : natChars a ++ '-' :: natChars b ≠ [] := by
    simp
  have hcontains : (natChars a ++ '-' :: natChars b).contains '-' = true := by
    rw [List.contains_eq_any_beq, List.any_eq_true]
    exact ⟨'-', by simp, by simp⟩
  have hsplit : splitFirst '-' (natChars a ++ '-' :: natChars b) = (natChars a, natChars b) :=
    splitFirst_append '-' (natChars a) (natChars b)
      (fun c hc => digit_ne_dash c (mem_natChars_isDigit a c hc))
  have hia : pyInt (natChars a) = some (Int.ofNat a) := by
    rw [pyInt_digits (natChars a) (natChars_ne_nil a) (mem_natChars_isDigit a),
      digitsToNat_natChars]
    rfl
  have hib : pyInt (natChars b) = some (Int.ofNat b) := by
    rw [pyInt_digits (natChars b) (natChars_ne_nil b) (mem_natChars_isDigit b),
      digitsToNat_natChars]
    rfl
  rw [parseLineParts]
  simp only [hstrip, hne, if_neg, hcontains, if_pos, hsplit, hia, hib, parseLineParts,
    Option.map_some']
  rw [pyRange_eq_Icc]
  simp

/-! ### Claim theorems, witnesses and counterexamples -/

/-- Claim C1: for every tree and every expand flag, `optimize_tree` rewrites
binary-operation nodes bottom-up (children before the node itself) and per
node applies, in order: render to infix text, parse into a symbolic
expression, simplify, factor the simplified result, and — only when the
expand flag is enabled — expand the factored result, splicing the
re-rendered result in place of the subtree; formally, the embedded code
equals the spec-side pipeline `specOptTree` on every input. -/
theorem C1_optimize_refines_spec_pipeline {S : Type} (E : Engine S) (expandFlag : Bool)
    (tree : List Stmt) :
    MathOptimizer.optimize_tree E expandFlag tree = specOptTree E expandFlag tree :=
  optimize_tree_eq_spec E expandFlag tree

/-- Claim C2 witness: a concrete engine, variable and assignment on which
both steps fire and the integration step consumes the differentiated
value. -/
theorem C2_witness :
    "x" ∈ ({"x"} : Finset String) ∧ lineFilterAllows ∅ 1 ∧
    CalcTransformer.visit_Assign tagEngine {"x"} {"x"} ∅
        (Stmt.assign [Tgt.name "x"] (Expr.num 1) 1)
      = (tagEngine.sympify (tagEngine.unparse (Expr.num 1))).bind (fun s1 =>
          (tagEngine.sympify (tagEngine.unparse (tagEngine.reify (tagEngine.diff s1 "x")))).map
            (fun s2 => Stmt.assign [Tgt.name "x"]
              (tagEngine.reify (tagEngine.integrate s2 "x")) 1)) :=
  ⟨by decide, by decide,
    C2_integration_acts_on_differentiated tagEngine {"x"} {"x"} ∅ "x" [] (Expr.num 1) 1
      (by decide) (by decide) (by decide)⟩

/-- Claim C3: a tree containing no binary-operation node is returned
unchanged by the optimizer (for every engine and flag): names, constants,
calls and comparisons are left untouched. -/
theorem C3_no_binop_is_identity {S : Type} (E : Engine S) (expandFlag : Bool)
    (tree : List Stmt) (h : hasBinOpM tree = false) :
    MathOptimizer.optimize_tree E expandFlag tree = some tree :=
  optimize_tree_no_binop E expandFlag tree h

/-- Claim C3 witness: the binop-free statement `print('hello')` passes
through unchanged. -/
theorem C3_witness :
    hasBinOpM [Stmt.exprStmt (Expr.call "print" (ExprList.cons (Expr.str "hello")
        ExprList.nil))] = false ∧
    MathOptimizer.optimize_tree rejectEngine false
        [Stmt.exprStmt (Expr.call "print" (ExprList.cons (Expr.str "hello") ExprList.nil))]
      = some [Stmt.exprStmt (Expr.call "print" (ExprList.cons (Expr.str "hello")
          ExprList.nil))] :=
  ⟨rfl, C3_no_binop_is_identity rejectEngine false
    [Stmt.exprStmt (Expr.call "print" (ExprList.cons (Expr.str "hello") ExprList.nil))] rfl⟩

/-- Claim C4: `extract` on a fresh instance returns the same tree unchanged
together with the list of exactly the binary-operation nodes of the tree in
parent-before-child (preorder) order; membership in the returned list
characterizes being a binary-operation subterm. -/
theorem C4_extract_returns_tree_and_preorder (tree : List Stmt) :
    MathExtractor.extract ⟨[]⟩ tree = ((tree, preorderM tree), ⟨preorderM tree⟩) ∧
    ∀ n : Expr, n ∈ preorderM tree ↔ (isBinOp n = true ∧ occursM n tree = true) := by
  constructor
  · rw [MathExtractor.extract]
    simp [extractVisitM_acc]
  · intro n
    exact mem_preorderM n tree

/-- Claim C5 counterexample: an assignment with two plain-name targets
(`a = b = x` with `a` selected for differentiation) is modified, so the
claim that multi-target assignments are left unmodified is false on the
code: only the first target is inspected. -/
theorem C5_counterexample :
    CalcTransformer.visit_Assign tagEngine {"a"} ∅ ∅
        (Stmt.assign [Tgt.name "a", Tgt.name "b"] (Expr.name "x") 1)
      ≠ some (Stmt.assign [Tgt.name "a", Tgt.name "b"] (Expr.name "x") 1) := by
  decide

/-- Claim C5 (amended) witness: an attribute-target assignment passes
through unmodified. -/
theorem C5_amended_witness :
    calcEligible (Stmt.assign [Tgt.attr "p" "q"] (Expr.num 1) 2) = false ∧
    CalcTransformer.visit_Assign rejectEngine ∅ ∅ ∅
        (Stmt.assign [Tgt.attr "p" "q"] (Expr.num 1) 2)
      = some (Stmt.assign [Tgt.attr "p" "q"] (Expr.num 1) 2) :=
  ⟨rfl, C5_amended_first_target_decides rejectEngine ∅ ∅ ∅
    (Stmt.assign [Tgt.attr "p" "q"] (Expr.num 1) 2) rfl⟩

/-- Claim C6: a selected replacement applies if and only if the target name
is in the corresponding variable set and the line filter is empty or
contains the assignment's line number (an empty filter applies everywhere):
the embedded code equals the spec-side transform `specVisitAssign`, whose
guards are exactly these conditions, on every statement. -/
theorem C6_line_filter_semantics {S : Type} (E : Engine S) (dv iv : Finset String)
    (dl : Finset Int) (s : Stmt) :
    CalcTransformer.visit_Assign E dv iv dl s = specVisitAssign E dv iv dl s :=
  visit_Assign_eq_spec E dv iv dl s

/-- Claim C7: per-node optimization fails exactly when the symbolic engine
cannot parse the rendered text of the node, and such a failure anywhere in
the tree aborts the whole file's optimization with no partial output. -/
theorem C7_unparseable_subtree_fatal :
    (∀ (S : Type) (E : Engine S) (expandFlag : Bool) (node : Expr),
      MathOptimizer.optimize_node E expandFlag node = none ↔
        E.sympify (E.unparse node) = none) ∧
    (∀ (S : Type) (E : Engine S) (expandFlag : Bool) (tree : List Stmt) (s : Stmt),
      s ∈ tree → MathOptimizer.optimize_stmt E expandFlag s = none →
        MathOptimizer.optimize_tree E expandFlag tree = none) :=
  ⟨fun _ E b node => optimize_node_none_iff E b node,
   fun _ E b tree s hs hn => optimize_tree_none_of_mem E b tree s hs hn⟩

/-- Claim C7 witness: under an engine that rejects every string, a file
containing a binary operation produces no output at all. -/
theorem C7_witness :
    (Stmt.assign [Tgt.name "y"] (Expr.binop (Expr.name "a") Op.add (Expr.name "b")) 1)
      ∈ [Stmt.assign [Tgt.name "y"] (Expr.binop (Expr.name "a") Op.add (Expr.name "b")) 1] ∧
    MathOptimizer.optimize_stmt rejectEngine false
        (Stmt.assign [Tgt.name "y"] (Expr.binop (Expr.name "a") Op.add (Expr.name "b")) 1)
      = none ∧
    MathOptimizer.optimize_tree rejectEngine false
        [Stmt.assign [Tgt.name "y"] (Expr.binop (Expr.name "a") Op.add (Expr.name "b")) 1]
      = none :=
  ⟨by decide, rfl,
    C7_unparseable_subtree_fatal.2 Nat rejectEngine false
      [Stmt.assign [Tgt.name "y"] (Expr.binop (Expr.name "a") Op.add (Expr.name "b")) 1]
      (Stmt.assign [Tgt.name "y"] (Expr.binop (Expr.name "a") Op.add (Expr.name "b")) 1)
      (by decide) rfl⟩

/-- Claim C8: for every engine whose transforms are value-preserving (the
spec's requirement on the symbolic engine), running the optimizer on a tree
it already produced yields a tree equal, under the engine's value
equivalence, to the first result: re-optimization is a fixed point up to
equivalence. -/
theorem C8_second_run_value_equal {S V : Type} (E : Engine S) (I : Interp V) (val : S → V)
    (L : EngineLaws E I val) (expandFlag : Bool) (t t1 t2 : List Stmt)
    (_h1 : MathOptimizer.optimize_tree E expandFlag t = some t1)
    (h2 : MathOptimizer.optimize_tree E expandFlag t1 = some t2) :
    dvalM I t2 = dvalM I t1 :=
  optimize_tree_dval L expandFlag t1 t2 h2

/-- Claim C8 witness: the value-faithful unary engine on `y = 4 * (2 + 3)`;
both runs succeed and the second result is value-equal to the first. -/
theorem C8_witness :
    MathOptimizer.optimize_tree unaryEngine false sampleTree = some sampleTree1 ∧
    MathOptimizer.optimize_tree unaryEngine false sampleTree1 = some sampleTree1 ∧
    dvalM unaryInterp sampleTree1 = dvalM unaryInterp sampleTree1 :=
  ⟨rfl, rfl,
    C8_second_run_value_equal unaryEngine unaryInterp id unaryEngineLaws false
      sampleTree sampleTree1 sampleTree1 rfl rfl⟩

/-- Claim C9: `parse_line_set` maps a comma-separated specification of
integers and inclusive ranges to the corresponding set: `"2,5-7"` yields
`{2,5,6,7}`, the empty string yields the empty set, and every canonical
range token `a-b` contributes exactly the integers from `a` to `b`
inclusive. -/
theorem C9_parse_line_set_spec :
    parse_line_set "2,5-7" = some ({2, 5, 6, 7} : Finset Int) ∧
    parse_line_set "" = some (∅ : Finset Int) ∧
    ∀ a b : Nat, parse_line_set (String.mk (natChars a ++ '-' :: natChars b))
        = some (Finset.Icc (Int.ofNat a) (Int.ofNat b)) :=
  ⟨by decide, rfl, parse_line_set_range⟩

/-- Claim C10: a `MathExtractor` instance accumulates its collected nodes
across calls: `extract` returns the previously recorded nodes followed by
the nodes of the new tree (so only a fresh instance returns exactly the
nodes of the given tree), and a second call on a new tree returns the first
tree's nodes followed by the second's. -/
theorem C10_extractor_accumulates :
    (∀ (st : MathExtractor) (tree : List Stmt),
      MathExtractor.extract st tree
        = ((tree, st.nodes ++ preorderM tree), ⟨st.nodes ++ preorderM tree⟩)) ∧
    (∀ t1 t2 : List Stmt,
      ((MathExtractor.extract (MathExtractor.extract ⟨[]⟩ t1).2 t2).1).2
        = preorderM t1 ++ preorderM t2) := by
  constructor
  · intro st tree
    rw [MathExtractor.extract]
    simp [extractVisitM_acc]
  · intro t1 t2
    rw [MathExtractor.extract, MathExtractor.extract]
    simp [extractVisitM_acc]
